import Mathlib

/-!
Verification of `neurokernel/mpi_proc.py` (MPI process-management classes).

The Python source is shallowly embedded: Python runtime values are the
inductive `PyVal`, Python dicts keyed by strings are association lists with
overwrite-on-set semantics (`Env.set` / `Env.update` mirror `d[k] = v` and
`d.update(r)`), exceptions are modelled with `PyError`, and the MPI side
effects of `ProcessManager.run` are recorded as an `Event` trace.
-/

/-- A Python runtime value, as far as `mpi_proc.py` inspects values:
`inspect.ismodule` / `isfunction` / `ismethod` / `isroutine` / `isclass`,
`getattr`/`hasattr`, a function's `func_code.co_names` and `func_globals`
(for a method, those of its `im_func`), and a class's `__bases__` and
members.  `builtin` stands for a routine that is neither a Python function
nor a method (`inspect.isbuiltin` etc.); `prim` stands for any other
object with no bound methods (numbers, strings, ...); `obj` is a generic
instance carrying its bound methods. -/
inductive PyVal where
  | module (attrs : List (String × PyVal))
  | pyfunc (co_names : List String) (globals : List (String × PyVal))
  | method (co_names : List String) (globals : List (String × PyVal))
  | builtin (name : String)
  | pyclass (name : String) (bases : List PyVal) (members : List (String × PyVal))
  | obj (members : List (String × PyVal))
  | prim (tag : String)

/-- A Python `dict` with string keys, in insertion order. -/
abbrev Env := List (String × PyVal)

/-- Python `inspect.ismodule`. -/
def isModule : PyVal → Bool
  | .module _ => true
  | _ => false

/-- Python `inspect.isfunction`. -/
def isfunction : PyVal → Bool
  | .pyfunc _ _ => true
  | _ => false

/-- Python `inspect.ismethod`. -/
def ismethod : PyVal → Bool
  | .method _ _ => true
  | _ => false

/-- Python `inspect.isroutine`: user function, bound method, or builtin routine. -/
def isroutine : PyVal → Bool
  | .pyfunc _ _ => true
  | .method _ _ => true
  | .builtin _ => true
  | _ => false

/-- Python `inspect.isclass`. -/
def isclass : PyVal → Bool
  | .pyclass _ _ _ => true
  | _ => false

/-- Dict membership test (`k in d`). -/
def Env.hasKey : Env → String → Bool
  | [], _ => false
  | (k, _) :: rest, key => k = key || Env.hasKey rest key

/-- Dict read (`d[k]`, as an `Option`). -/
def Env.lookup : Env → String → Option PyVal
  | [], _ => none
  | (k, v) :: rest, key => if k = key then some v else Env.lookup rest key

/-- Overwrite the value of every entry whose key is `k`, in place. -/
def Env.overwrite : Env → String → PyVal → Env
  | [], _, _ => []
  | (k0, v0) :: rest, k, v =>
    (k0, if k0 = k then v else v0) :: Env.overwrite rest k v

/-- Dict write `d[k] = v`: overwrite the existing entry for `k` (keeping
its insertion position), else append. -/
def Env.set (e : Env) (k : String) (v : PyVal) : Env :=
  if e.hasKey k then Env.overwrite e k v else e ++ [(k, v)]

/-- Dict update `d.update(r)`: write every entry of `r` into `d`. -/
def Env.update (e r : Env) : Env :=
  r.foldl (fun acc p => Env.set acc p.1 p.2) e

/-- Keys of a dict, in order (`d.keys()`). -/
def Env.keys (e : Env) : List String := e.map Prod.fst

/-- The exceptions `mpi_proc.py` can raise in the modelled fragment:
`ValueError("invalid input")` from `funcvars`, `AssertionError` from the
`assert issubclass(...)` in `ProcessManager.add`, and the `TypeError`
`issubclass` itself raises when its first argument is not a class. -/
inductive PyError where
  | valueError
  | assertionError
  | typeError
deriving DecidableEq, Repr

mutual
/-- The `dir()`-style attribute table of a class: its own members, then those of
its bases left to right, earlier (more derived) definitions shadowing later
ones.  Python's `getmembers` reports each name once with its MRO-resolved
value; this list has the same name-to-value mapping. -/
def classAttrs : PyVal → List (String × PyVal)
  | .pyclass _ bases members => dedupKeys (members ++ classAttrsList bases)
  | _ => []
def classAttrsList : List PyVal → List (String × PyVal)
  | [] => []
  | b :: rest => classAttrs b ++ classAttrsList rest
def dedupKeys : List (String × PyVal) → List (String × PyVal) :=
  dedupKeysAux []
def dedupKeysAux : List String → List (String × PyVal) → List (String × PyVal)
  | _, [] => []
  | seen, (k, v) :: rest =>
    if seen.contains k then dedupKeysAux seen rest
    else (k, v) :: dedupKeysAux (k :: seen) rest
end

/-- Python `getattr(x, n)` (`none` = attribute error, i.e. `hasattr` is false).
Only the attribute sources the capture code can encounter are modelled:
module attributes, instance members, and class members (via `classAttrs`). -/
def getattrVal : PyVal → String → Option PyVal
  | .module attrs, n => Env.lookup attrs n
  | .obj members, n => Env.lookup members n
  | .pyclass nm bases members, n => Env.lookup (classAttrs (.pyclass nm bases members)) n
  | _, _ => none

/-- One iteration of the inner loop of `funcvars` (mpi_proc.py lines
53-56): if `hasattr(results[r], name)` and the attribute is a module, do
`results[r + "." + name] = getattr(results[r], name)`. -/
def innerStepAttr (name r : String) (acc : Env) (v : PyVal) : Env :=
  match getattrVal v name with
  | none => acc
  | some a => if isModule a then Env.set acc (r ++ "." ++ name) a else acc

def innerStep (name r : String) (acc : Env) : Env :=
  match Env.lookup acc r with
  | none => acc
  | some v => innerStepAttr name r acc v

/-- Inner loop of `funcvars`: run `innerStep` for each key `r` in the
snapshot of `results.keys()`. -/
def innerResolve (name : String) (keys : List String) (acc : Env) : Env :=
  match keys with
  | [] => acc
  | r :: rest => innerResolve name rest (innerStep name r acc)

/-- Outer loop of `funcvars` (lines 44-56): for each `name` in
`co_names`, bind it from the global dict if present, else try to resolve it
as a module-valued attribute of the already-captured values. -/
def funcvarsLoop (names : List String) (gd : Env) (acc : Env) : Env :=
  match names with
  | [] => acc
  | name :: rest =>
    funcvarsLoop rest gd
      (match Env.lookup gd name with
       | some v => Env.set acc name v
       | none => innerResolve name (Env.keys acc) acc)

/-- The function `funcvars(x)` (lines 29-57): objects accessed by a function or method;
raises `ValueError("invalid input")` on any other input. -/
def funcvars : PyVal → Except PyError Env
  | .pyfunc names gd => .ok (funcvarsLoop names gd [])
  | .method names gd => .ok (funcvarsLoop names gd [])
  | _ => .error .valueError

/-- Python `inspect.getmembers(x, predicate=inspect.ismethod)`: the attribute
table of `x` filtered to bound/unbound methods. -/
def getmembersMethods (x : PyVal) : List (String × PyVal) :=
  match x with
  | .pyclass nm bases members =>
    (classAttrs (.pyclass nm bases members)).filter (fun p => ismethod p.2)
  | .obj members => (dedupKeys members).filter (fun p => ismethod p.2)
  | .module attrs => (dedupKeys attrs).filter (fun p => ismethod p.2)
  | _ => []

/-- The `getmembers` loop of `allglobalvars` (lines 71-72):
`results.update(allglobalvars(f[1]))` for each member.  The members come
from `getmembersMethods`, hence are methods, for which `allglobalvars`
is exactly `funcvars`; `funcvars` is inlined here. -/
def memberLoop : List (String × PyVal) → Env → Except PyError Env
  | [], acc => .ok acc
  | (_, f) :: rest, acc =>
    match funcvars f with
    | .error e => .error e
    | .ok r => memberLoop rest (Env.update acc r)

mutual
/-- The function `allglobalvars(x)` (lines 59-73): all globals accessed by an object.
For a routine, `funcvars`; otherwise, for a class first union the captures
of every base class, then union the captures of every method member. -/
def allglobalvars : PyVal → Except PyError Env
  | .pyfunc names gd => funcvars (.pyfunc names gd)
  | .method names gd => funcvars (.method names gd)
  | .builtin n => funcvars (.builtin n)
  | .pyclass nm bases members =>
    match agvBases bases [] with
    | .error e => .error e
    | .ok r1 => memberLoop (getmembersMethods (.pyclass nm bases members)) r1
  | .obj members => memberLoop (getmembersMethods (.obj members)) []
  | .module attrs => memberLoop (getmembersMethods (.module attrs)) []
  | .prim s => memberLoop (getmembersMethods (.prim s)) []
/-- The `for b in x.__bases__: results.update(allglobalvars(b))` loop. -/
def agvBases : List PyVal → Env → Except PyError Env
  | [], acc => .ok acc
  | b :: rest, acc =>
    match allglobalvars b with
    | .error e => .error e
    | .ok r => agvBases rest (Env.update acc r)
end

/-- Keyword-argument dict of a registered work unit. -/
abbrev Kwargs := List (String × PyVal)

mutual
/-- Python `issubclass(a, c)`: `a` is `c` itself or one of `a`'s bases is a
subclass of `c`; `false` when `a` is not a class.  (Python compares class
objects by identity; here classes are compared structurally, with the
`name` field playing the role of the object identity.) -/
def issubclass : PyVal → PyVal → Bool
  | .pyclass nm bases members, c =>
    sameClass (.pyclass nm bases members) c || issubclassAny bases c
  | _, _ => false
def issubclassAny : List PyVal → PyVal → Bool
  | [], _ => false
  | b :: rest, c => issubclass b c || issubclassAny rest c
/-- Structural equality of two class values (identity proxy). -/
def sameClass : PyVal → PyVal → Bool
  | .pyclass nm bases members, .pyclass nm2 bases2 members2 =>
    nm = nm2 && sameClassList bases bases2 && sameClassEnv members members2
  | _, _ => false
def sameClassList : List PyVal → List PyVal → Bool
  | [], [] => true
  | b :: r, b2 :: r2 => sameClass b b2 && sameClassList r r2
  | _, _ => false
def sameClassEnv : List (String × PyVal) → List (String × PyVal) → Bool
  | [], [] => true
  | (k, v) :: r, (k2, v2) :: r2 => k = k2 && sameClass v v2 && sameClassEnv r r2
  | _, _ => false
end

/-- The `Process` class of mpi_proc.py (lines 75-148).  Its base
`LoggerMixin` and the bodies of its methods live outside the captured
behaviour the claims exercise (they reference only external modules), so
the class value carries no bases and no members; what matters for the
manager is its identity as the required superclass of every target. -/
def ProcessClass : PyVal := .pyclass "Process" [] []

/-- Models `Process.send_parent(data, tag=0)` (lines 126-131): one message on the
worker's parent-facing intercommunicator, destination rank 0, sent with
the caller's tag (`self.intercomm.send(data, 0, tag=tag)`). -/
structure MPIMessage where
  data : PyVal
  dest : Nat
  tag : Nat

def Process.send_parent (data : PyVal) (tag : Nat) : MPIMessage :=
  { data := data, dest := 0, tag := tag }

/-- Models `ProcessManager.send(data, dest, tag=0)` (lines 240-245): the source
calls `self.intercomm.send(data, dest, tag=0)` — the literal `0`, not the
`tag` parameter, is transmitted. -/
def ProcessManager.send (data : PyVal) (dest : Nat) (tag : Nat) : MPIMessage :=
  { data := data, dest := dest, tag := 0 }

/-- An MPI receive posted with an exact tag or with `MPI.ANY_TAG`. -/
inductive TagPattern where
  | anyTag
  | exact (t : Nat)

/-- MPI delivery rule: a receive accepts a message iff it asked for any
tag or for exactly the message's tag. -/
def matchesRecv (p : TagPattern) (m : MPIMessage) : Bool :=
  match p with
  | .anyTag => true
  | .exact t => m.tag = t

/-- One registered work unit: the target class plus the `args`/`kwargs` of
its `add` call.  The source stores these in the three index-parallel lists
`_targets`, `_args`, `_kwargs`, always appended to together; they are
modelled as one list of records indexed identically. -/
structure WorkUnit where
  target : PyVal
  args : List PyVal
  kwargs : Kwargs

/-- The manager's intercommunicator: `MPI.COMM_NULL` until `run()` spawns,
then an intercommunicator of fixed remote size. -/
inductive Intercomm where
  | null
  | spawned (size : Nat)
deriving DecidableEq, Repr

/-- The `ProcessManager` state: the registry and `self._intercomm`. -/
structure ProcessManager where
  units : List WorkUnit
  intercomm : Intercomm

/-- Models `ProcessManager.__init__` (lines 155-162): empty registry, null
intercommunicator. -/
def ProcessManager.init : ProcessManager := { units := [], intercomm := .null }

/-- Models `ProcessManager.add(target, *args, **kwargs)` (lines 176-193):
`assert issubclass(target, Process)`, then append to the registry.  The
returned pair is (state after the call, exception raised if any):
`AssertionError` when `target` is a class but not a `Process` subclass,
and the `TypeError` `issubclass` raises when `target` is not a class. -/
def ProcessManager.add (m : ProcessManager) (target : PyVal) (args : List PyVal)
    (kwargs : Kwargs) : ProcessManager × Option PyError :=
  match target with
  | .pyclass nm bases members =>
    if issubclass (.pyclass nm bases members) ProcessClass then
      ({ m with units := m.units ++ [{ target := target, args := args, kwargs := kwargs }] },
       none)
    else (m, some .assertionError)
  | _ => (m, some .typeError)

/-- Models `ProcessManager.__len__` (lines 195-196): `len(self._targets)`. -/
def ProcessManager.len (m : ProcessManager) : Nat := m.units.length

/-- An observable MPI action of `ProcessManager.run`:
`MPI.COMM_SELF.Spawn(..., maxprocs=n)`, the logging-configuration send
`self._intercomm.send(twiggy.emitters, i)`, and the work-unit send
`self._intercomm.send((target, allglobalvars(target), args, kwargs), i)`. -/
inductive Event where
  | spawn (maxprocs : Nat)
  | sendConfig (dest : Nat)
  | sendData (dest : Nat) (target : PyVal) (env : Env) (args : List PyVal) (kwargs : Kwargs)

/-- The second `run` loop (lines 234-238), sending to rank `i` the tuple
`(self._targets[i], allglobalvars(self._targets[i]), self._args[i],
self._kwargs[i])`; an exception from `allglobalvars` aborts the loop after
the events already issued. -/
def dataLoop : List WorkUnit → Nat → List Event × Option PyError
  | [], _ => ([], none)
  | u :: rest, i =>
    match allglobalvars u.target with
    | .error e => ([], some e)
    | .ok env =>
      match dataLoop rest (i + 1) with
      | (evs, err) => (Event.sendData i u.target env u.args u.kwargs :: evs, err)

/-- Models `ProcessManager.run()` (lines 206-238).  `isParent` is the memoized
`self._is_parent` (`MPI.Comm.Get_parent() == MPI.COMM_NULL`).  In the
parent: spawn `len(self)` processes (setting `self._intercomm`), send the
logging configuration to every rank, then send every work-unit tuple.
In a spawned process: do nothing.  Returns (event trace, final state,
exception raised if any). -/
def ProcessManager.run (m : ProcessManager) (isParent : Bool) :
    List Event × ProcessManager × Option PyError :=
  if isParent then
    (Event.spawn m.len :: (List.range m.len).map Event.sendConfig ++ (dataLoop m.units 0).1,
     { m with intercomm := .spawned m.len }, (dataLoop m.units 0).2)
  else ([], m, none)

/-- A sequence of `add` attempts folded over a manager; a call that raises
leaves the state unchanged (as in the source, where the assertion fires
before any registry append). -/
def applyAdds (m : ProcessManager) : List WorkUnit → ProcessManager
  | [] => m
  | c :: rest => applyAdds (m.add c.target c.args c.kwargs).1 rest

/-- Whether an event is a work-unit payload transmission. -/
def isDataEvent : Event → Bool
  | .sendData _ _ _ _ _ => true
  | _ => false

/-- Work-unit classes of the registration scenario of the spec
(`WorkerA(1,2)`, `WorkerB(b=5,c=6)`): `Process` subclasses with no
methods of their own. -/
def WorkerA : PyVal := .pyclass "WorkerA" [ProcessClass] []

def WorkerB : PyVal := .pyclass "WorkerB" [ProcessClass] []

/-- Manager of the scenario: `add(WorkerA, 1, 2)` then
`add(WorkerB, b=5, c=6)`. -/
def man2 : ProcessManager :=
  ((ProcessManager.init.add WorkerA [.prim "1", .prim "2"] []).1.add WorkerB []
    [("b", .prim "5"), ("c", .prim "6")]).1

/-- Whether a capture computation returned normally. -/
def captureOk : Except PyError Env → Bool
  | .ok _ => true
  | .error _ => false

/-- The registration sequence of the scenario: `WorkerA(1,2)` then
`WorkerB(b=5,c=6)`. -/
def calls2 : List WorkUnit :=
  [{ target := WorkerA, args := [.prim "1", .prim "2"], kwargs := [] },
   { target := WorkerB, args := [], kwargs := [("b", .prim "5"), ("c", .prim "6")] }]

/-- The module object `numpy`, whose attribute `zeros` is a routine and
not a module. -/
def numpyModule : PyVal := .module [("zeros", .builtin "numpy.zeros")]

/-- A function whose code references `numpy.zeros` (referenced-name table
`("numpy", "zeros")`), with `numpy` in its global namespace. -/
def zerosRefFunc : PyVal := .pyfunc ["numpy", "zeros"] [("numpy", numpyModule)]

/-- The module object `numpy` with its submodule `linalg`. -/
def numpyWithLinalg : PyVal := .module [("linalg", .module [])]

/-- Grandparent class of the inheritance scenario: defines a method
referencing the global `gsym`. -/
def Gcls : PyVal := .pyclass "G" [] [("gm", .method ["gsym"] [("gsym", .prim "gv")])]

/-- Parent class: extends `Gcls`, defines a method referencing `psym`. -/
def Pcls : PyVal :=
  .pyclass "P" [Gcls] [("pm", .method ["psym"] [("psym", .prim "pv")])]

/-- Derived class: extends `Pcls`, no methods of its own. -/
def Dcls : PyVal := .pyclass "D" [Pcls] []

/-- The string has no '.' — true of every entry of a code object's
referenced-name table (`co_names` holds single identifiers). -/
def dotFree (s : String) : Bool := !(s.data.contains '.')

/-- The invariant of C10: every key containing a '.' maps to a module. -/
def dotKeysAreModules : Env → Bool
  | [] => true
  | (k, v) :: rest => (dotFree k || isModule v) && dotKeysAreModules rest

mutual
/-- Well-formedness of the embedding that reflects a fact of the Python
runtime: every name in any reachable `co_names` table is a single
identifier, hence contains no '.'. -/
def namesOk : PyVal → Bool
  | .pyfunc names _ => names.all dotFree
  | .method names _ => names.all dotFree
  | .builtin _ => true
  | .prim _ => true
  | .module attrs => namesOkEnv attrs
  | .obj members => namesOkEnv members
  | .pyclass _ bases members => namesOkList bases && namesOkEnv members
def namesOkList : List PyVal → Bool
  | [] => true
  | b :: rest => namesOk b && namesOkList rest
def namesOkEnv : List (String × PyVal) → Bool
  | [] => true
  | (_, v) :: rest => namesOk v && namesOkEnv rest
end

/-- A function referencing `a.b` where the attribute is a submodule: its
capture has the dotted key `"a.b"` bound to that module. -/
def dottedCaptureFunc : PyVal := .pyfunc ["a", "b"] [("a", .module [("b", .module [])])]

/-! ## Basic lemmas about the manager registry -/

theorem add_intercomm (m : ProcessManager) (t : PyVal) (a : List PyVal) (k : Kwargs) :
    (m.add t a k).1.intercomm = m.intercomm := by
  cases t <;> simp [ProcessManager.add]
  split <;> rfl

theorem applyAdds_intercomm (calls : List WorkUnit) :
    ∀ m : ProcessManager, (applyAdds m calls).intercomm = m.intercomm := by
  induction calls with
  | nil => intro m; rfl
  | cons c rest ih =>
    intro m
    simpa [applyAdds, add_intercomm] using ih (m.add c.target c.args c.kwargs).1

theorem add_ok (m : ProcessManager) (t : PyVal) (a : List PyVal) (k : Kwargs)
    (h : issubclass t ProcessClass = true) :
    m.add t a k =
      ({ m with units := m.units ++ [{ target := t, args := a, kwargs := k }] }, none) := by
  cases t <;> simp_all [ProcessManager.add, issubclass]

theorem applyAdds_len (calls : List WorkUnit) :
    ∀ m : ProcessManager, (∀ c ∈ calls, issubclass c.target ProcessClass = true) →
      (applyAdds m calls).len = m.len + calls.length := by
  induction calls with
  | nil => intro m _; simp [applyAdds]
  | cons c rest ih =>
    intro m h
    have hc : issubclass c.target ProcessClass = true := h c (List.mem_cons_self c rest)
    have hrest : ∀ c2 ∈ rest, issubclass c2.target ProcessClass = true :=
      fun c2 hc2 => h c2 (List.mem_cons_of_mem c hc2)
    simp only [applyAdds, add_ok m c.target c.args c.kwargs hc]
    rw [ih _ hrest]
    simp [ProcessManager.len]
    omega

/-! ## C1: manager-side `send` and the message tag -/

/-- C1: the claim states that `ProcessManager.send(payload, dest, tag=T)`
transmits the payload with tag `T`, mirroring `Process.send_parent`, so
that a receive requesting tag `T` (or any tag) accepts it.  The source
instead passes the literal `0` — `self.intercomm.send(data, dest, tag=0)` —
so a message sent with `tag=5` is transmitted with tag `0`: a receive
posted for tag `5` does not accept it, while the worker-side
`send_parent(data, tag=5)` does transmit tag `5`.  The dead `tag`
parameter, together with the three sibling send methods that all forward
their `tag`, shows the claim describes the intent and the code a slip. -/
theorem c1_send_ignores_tag :
    (ProcessManager.send (.prim "payload") 1 5).tag = 0 ∧
    matchesRecv (.exact 5) (ProcessManager.send (.prim "payload") 1 5) = false ∧
    matchesRecv .anyTag (ProcessManager.send (.prim "payload") 1 5) = true ∧
    (Process.send_parent (.prim "payload") 5).tag = 5 ∧
    matchesRecv (.exact 5) (Process.send_parent (.prim "payload") 5) = true :=
  ⟨rfl, rfl, rfl, rfl, rfl⟩

/-! ## C4: `add` with a non-`Process` target -/

/-- C4: for every target that is not a subclass of `Process`,
`ProcessManager.add` raises (the assertion failure standing for the
spec's `TypeMismatchError`), leaves the manager — in particular
`count()` — unchanged, and issues no spawn (`add` performs no MPI
action at all; only `run` does). -/
theorem c4_add_type_mismatch (m : ProcessManager) (target : PyVal)
    (args : List PyVal) (kwargs : Kwargs)
    (h : issubclass target ProcessClass = false) :
    (m.add target args kwargs).1 = m ∧
    (m.add target args kwargs).1.len = m.len ∧
    (m.add target args kwargs).2.isSome = true := by
  cases target <;> simp_all [ProcessManager.add]

theorem c4_witness :
    issubclass (.prim "fortytwo") ProcessClass = false ∧
    ((ProcessManager.init.add (.prim "fortytwo") [] []).1 = ProcessManager.init ∧
     (ProcessManager.init.add (.prim "fortytwo") [] []).1.len = ProcessManager.init.len ∧
     (ProcessManager.init.add (.prim "fortytwo") [] []).2.isSome = true) :=
  ⟨rfl, c4_add_type_mismatch ProcessManager.init (.prim "fortytwo") [] [] rfl⟩

/-! ## C8: `run` in a spawned process is a no-op -/

/-- C8: on any manager reachable from a fresh `ProcessManager` by a
sequence of `add` attempts, the intercommunicator is still the null
communicator it was initialized to, and calling `run()` in a spawned
process (one with a parent link, `isParent = false`) issues no MPI event,
raises nothing, and returns the state — intercommunicator included —
unchanged. -/
theorem c8_run_child_noop (calls : List WorkUnit) :
    (applyAdds ProcessManager.init calls).intercomm = .null ∧
    (applyAdds ProcessManager.init calls).run false =
      ([], applyAdds ProcessManager.init calls, none) :=
  ⟨applyAdds_intercomm calls ProcessManager.init, rfl⟩

/-! ## C5: `count()` after N adds, and the spawn size -/

/-- C5: after a sequence of N successful `add` calls (targets satisfying
the `Process`-subclass assertion) on a fresh manager, `len(self)` is N,
and `run()` in the spawning role issues the spawn with `maxprocs = N`. -/
theorem c5_count_and_spawn (calls : List WorkUnit)
    (h : (calls.all fun c => issubclass c.target ProcessClass) = true) :
    (applyAdds ProcessManager.init calls).len = calls.length ∧
    ((applyAdds ProcessManager.init calls).run true).1[0]? =
      some (.spawn calls.length) := by
  have hall : ∀ c ∈ calls, issubclass c.target ProcessClass = true :=
    List.all_eq_true.mp h
  have hlen : (applyAdds ProcessManager.init calls).len = calls.length := by
    simpa [ProcessManager.init, ProcessManager.len]
      using applyAdds_len calls ProcessManager.init hall
  exact ⟨hlen, by simp [ProcessManager.run, hlen]⟩

theorem c5_witness :
    (calls2.all fun c => issubclass c.target ProcessClass) = true ∧
    ((applyAdds ProcessManager.init calls2).len = calls2.length ∧
     ((applyAdds ProcessManager.init calls2).run true).1[0]? =
       some (.spawn calls2.length)) :=
  ⟨by decide, c5_count_and_spawn calls2 (by decide)⟩

/-! ## C7: ordering of the two transmission loops in `run` -/

theorem dataLoop_all_data (units : List WorkUnit) :
    ∀ i, ((dataLoop units i).1).all isDataEvent = true := by
  induction units with
  | nil => intro i; rfl
  | cons u rest ih =>
    intro i
    cases h : allglobalvars u.target with
    | error e => simp [dataLoop, h]
    | ok env => simp [dataLoop, h, isDataEvent, ih (i + 1)]

/-- C7 (counterexample): the claim states that the configuration and
payload transmissions to one rank are issued as a single unbroken
sequence before the manager proceeds to the next rank.  With the two
scenario work units registered, the trace of `run()` is: spawn, config to
rank 0, config to rank 1, payload to rank 0, payload to rank 1 — the
transmission immediately after the configuration to rank 0 (trace index
2) is the configuration to rank 1, not a payload, so the two
transmissions to rank 0 are interleaved with a transmission to rank 1. -/
theorem c7_counterexample :
    (man2.run true).1 =
      [.spawn 2, .sendConfig 0, .sendConfig 1,
       .sendData 0 WorkerA [] [.prim "1", .prim "2"] [],
       .sendData 1 WorkerB [] [] [("b", .prim "5"), ("c", .prim "6")]] ∧
    ((man2.run true).1)[2]?.map isDataEvent = some false :=
  ⟨rfl, rfl⟩

/-- C7 (amended): `run()` in the spawning role first issues the
logging-configuration transmissions to ranks 0..N-1 in rank order, and
only then the payload transmissions, in rank order; hence the payload to
rank i is strictly after the configuration to rank i, but the two
transmissions to a given rank are not contiguous once more than one work
unit is registered. -/
theorem c7_config_phase_precedes_payload_phase (m : ProcessManager) :
    (m.run true).1 =
      Event.spawn m.len ::
        ((List.range m.len).map Event.sendConfig ++ (dataLoop m.units 0).1) ∧
    ((dataLoop m.units 0).1).all isDataEvent = true :=
  ⟨rfl, dataLoop_all_data m.units 0⟩

/-! ## C2: dotted attribute paths in `funcvars` -/

theorem dot_length : (".").length = 1 := rfl

theorem append_dot_ne (a b : String) : ¬(a = a ++ "." ++ b) := by
  intro h
  have h2 := congrArg String.length h
  simp [String.length_append, dot_length] at h2
  omega

/-- C2 (counterexample): the claim states that environment capture on a
function referencing `numpy.zeros` includes the dotted path
`"numpy.zeros"` mapped to the live attribute.  The source only records a
dotted path when the attribute satisfies `inspect.ismodule`
(mpi_proc.py line 55); `numpy.zeros` is a routine, so the returned
mapping contains only `"numpy"` and omits `"numpy.zeros"`. -/
theorem c2_counterexample :
    funcvars zerosRefFunc = .ok [("numpy", numpyModule)] ∧
    Env.lookup [("numpy", numpyModule)] "numpy.zeros" = none :=
  ⟨rfl, rfl⟩

/-- C2 (amended): for a function referencing `a.b` with the module `a` in
its global namespace, `b` not a global, and the attribute `a.b` itself a
module, `funcvars` captures the dotted path `"a.b"` mapped to the live
attribute object, without the caller passing it as an argument; when the
attribute is not a module it is omitted (see the counterexample). -/
theorem c2_module_attr_capture (a b : String) (gd : Env) (M w : PyVal) (env : Env)
    (h1 : Env.lookup gd a = some M) (h2 : Env.lookup gd b = none)
    (h3 : getattrVal M b = some w) (h4 : isModule w = true)
    (h5 : funcvars (.pyfunc [a, b] gd) = .ok env) :
    Env.lookup env (a ++ "." ++ b) = some w := by
  have henv : env = funcvarsLoop [a, b] gd [] := by
    simp only [funcvars, Except.ok.injEq] at h5
    exact h5.symm
  subst henv
  have hne : (a = a ++ "." ++ b) = False := eq_false (append_dot_ne a b)
  simp [funcvarsLoop, h1, h2, Env.set, Env.hasKey, Env.keys, innerResolve,
        innerStep, innerStepAttr, Env.lookup, h3, h4, hne]

theorem c2_witness :
    Env.lookup [("numpy", numpyWithLinalg)] "numpy" = some numpyWithLinalg ∧
    Env.lookup [("numpy", numpyWithLinalg)] "linalg" = none ∧
    getattrVal numpyWithLinalg "linalg" = some (.module []) ∧
    isModule (PyVal.module []) = true ∧
    funcvars (.pyfunc ["numpy", "linalg"] [("numpy", numpyWithLinalg)]) =
      .ok [("numpy", numpyWithLinalg), ("numpy.linalg", .module [])] ∧
    Env.lookup [("numpy", numpyWithLinalg), ("numpy.linalg", .module [])]
      ("numpy" ++ "." ++ "linalg") = some (.module []) :=
  ⟨rfl, rfl, rfl, rfl, rfl,
   c2_module_attr_capture "numpy" "linalg" [("numpy", numpyWithLinalg)]
     numpyWithLinalg (.module [])
     [("numpy", numpyWithLinalg), ("numpy.linalg", .module [])]
     rfl rfl rfl rfl rfl⟩

/-! ## C3: behaviour of the capture functions on invalid input -/

theorem memberLoop_methods_ok (ms : List (String × PyVal)) :
    ∀ acc, (∀ p ∈ ms, ismethod p.2 = true) → ∃ env, memberLoop ms acc = .ok env := by
  induction ms with
  | nil => intro acc _; exact ⟨acc, rfl⟩
  | cons p rest ih =>
    intro acc h
    obtain ⟨k, f⟩ := p
    have hp : ismethod f = true := h (k, f) (List.mem_cons_self _ _)
    cases f with
    | method names gd =>
      simp only [memberLoop, funcvars]
      exact ih _ (fun q hq => h q (List.mem_cons_of_mem _ hq))
    | module attrs => simp [ismethod] at hp
    | pyfunc names gd => simp [ismethod] at hp
    | builtin n => simp [ismethod] at hp
    | pyclass nm bases members => simp [ismethod] at hp
    | obj members => simp [ismethod] at hp
    | prim s => simp [ismethod] at hp

/-- C3 (counterexample): the claim states that environment capture on an
input that is neither an invocable routine nor a class raises
`InvalidTargetError`.  On the integer-like object `42` — neither a
routine nor a class — `allglobalvars` raises nothing: it falls through to
the member loop (`42` has no bound methods) and silently returns the
empty mapping. -/
theorem c3_counterexample : allglobalvars (.prim "42") = .ok [] := rfl

/-- C3 (amended): only `funcvars` enforces the input contract — it raises
`ValueError("invalid input")` on any input that is neither a function nor
a method; `allglobalvars` on a non-routine, non-class input does not
raise but silently returns the union of the captures of the input's
bound methods (empty when it has none). -/
theorem c3_capture_error_behavior :
    (∀ x : PyVal, isfunction x = false → ismethod x = false →
       funcvars x = .error .valueError) ∧
    (∀ x : PyVal, isroutine x = false → isclass x = false →
       ∃ env, allglobalvars x = .ok env) := by
  constructor
  · intro x h1 h2
    cases x <;> simp_all [isfunction, ismethod, funcvars]
  · intro x h1 h2
    cases x with
    | pyfunc names gd => simp [isroutine] at h1
    | method names gd => simp [isroutine] at h1
    | builtin n => simp [isroutine] at h1
    | pyclass nm bases members => simp [isclass] at h2
    | module attrs =>
      simp only [allglobalvars, getmembersMethods]
      exact memberLoop_methods_ok _ [] (fun p hp => (List.mem_filter.mp hp).2)
    | obj members =>
      simp only [allglobalvars, getmembersMethods]
      exact memberLoop_methods_ok _ [] (fun p hp => (List.mem_filter.mp hp).2)
    | prim s => exact ⟨[], rfl⟩

theorem c3_witness :
    funcvars (.prim "z") = .error .valueError ∧
    captureOk (allglobalvars (.obj [("m", .method [] [])])) = true := by
  constructor
  · exact c3_capture_error_behavior.1 (.prim "z") rfl rfl
  · obtain ⟨env, he⟩ :=
      c3_capture_error_behavior.2 (.obj [("m", .method [] [])]) rfl rfl
    simp [he, captureOk]

/-! ## C6: content of the per-rank payload transmissions -/

theorem dataLoop_get (units : List WorkUnit) :
    ∀ (i j : Nat) (u : WorkUnit) (env : Env),
      (∀ u2 ∈ units, captureOk (allglobalvars u2.target) = true) →
      units[j]? = some u → allglobalvars u.target = .ok env →
      ((dataLoop units i).1)[j]? =
        some (.sendData (i + j) u.target env u.args u.kwargs) := by
  induction units with
  | nil => intro i j u env _ hj _; simp at hj
  | cons v rest ih =>
    intro i j u env hall hj henv
    have hv : captureOk (allglobalvars v.target) = true :=
      hall v (List.mem_cons_self _ _)
    cases hv2 : allglobalvars v.target with
    | error e => rw [hv2] at hv; simp [captureOk] at hv
    | ok env0 =>
      cases j with
      | zero =>
        simp only [List.getElem?_cons_zero, Option.some.injEq] at hj
        subst hj
        rw [hv2] at henv
        injection henv with henv2
        subst henv2
        simp [dataLoop, hv2]
      | succ j2 =>
        simp only [List.getElem?_cons_succ] at hj
        have hrest := ih (i + 1) j2 u env
          (fun q hq => hall q (List.mem_cons_of_mem _ hq)) hj henv
        have harith : i + 1 + j2 = i + (j2 + 1) := by omega
        rw [harith] at hrest
        simp [dataLoop, hv2, hrest]

/-- C6: when every registered target's environment capture succeeds,
`run()` in the spawning role sends to each rank `j` exactly the tuple
(registered class for index `j`, captured environment of that class, the
positional args of its `add` call, the keyword args of its `add` call):
it is the event at trace position `1 + count + j`, i.e. the `j`-th
payload transmission after the spawn and the `count` configuration
sends. -/
theorem c6_run_sends_registered_tuples (m : ProcessManager) (j : Nat) (u : WorkUnit)
    (env : Env)
    (hall : ∀ u2 ∈ m.units, captureOk (allglobalvars u2.target) = true)
    (hj : m.units[j]? = some u) (henv : allglobalvars u.target = .ok env) :
    ((m.run true).1)[1 + m.len + j]? =
      some (.sendData j u.target env u.args u.kwargs) := by
  have hd := dataLoop_get m.units 0 j u env hall hj henv
  have hrun : (m.run true).1 =
      Event.spawn m.len ::
        ((List.range m.len).map Event.sendConfig ++ (dataLoop m.units 0).1) := rfl
  rw [hrun]
  have h1 : 1 + m.len + j = (m.len + j) + 1 := by omega
  rw [h1, List.getElem?_cons_succ]
  rw [List.getElem?_append_right (by simp)]
  simp only [List.length_map, List.length_range]
  have h2 : m.len + j - m.len = j := by omega
  rw [h2]
  simpa using hd

theorem c6_witness :
    (man2.units.all fun u2 => captureOk (allglobalvars u2.target)) = true ∧
    man2.units[0]? =
      some { target := WorkerA, args := [.prim "1", .prim "2"], kwargs := [] } ∧
    allglobalvars WorkerA = .ok [] ∧
    ((man2.run true).1)[1 + man2.len + 0]? =
      some (.sendData 0 WorkerA [] [.prim "1", .prim "2"] []) ∧
    ((man2.run true).1)[1 + man2.len + 1]? =
      some (.sendData 1 WorkerB [] [] [("b", .prim "5"), ("c", .prim "6")]) :=
  ⟨by decide, rfl, rfl,
   c6_run_sends_registered_tuples man2 0
     { target := WorkerA, args := [.prim "1", .prim "2"], kwargs := [] } []
     (by decide) rfl rfl,
   c6_run_sends_registered_tuples man2 1
     { target := WorkerB, args := [], kwargs := [("b", .prim "5"), ("c", .prim "6")] } []
     (by decide) rfl rfl⟩

/-! ## C9: captures of base classes are preserved in derived classes -/

theorem hasKey_append (e1 e2 : Env) (k2 : String) :
    Env.hasKey (e1 ++ e2) k2 = (Env.hasKey e1 k2 || Env.hasKey e2 k2) := by
  induction e1 with
  | nil => simp [Env.hasKey]
  | cons p rest ih =>
    obtain ⟨k0, v0⟩ := p
    simp [Env.hasKey, ih, Bool.or_assoc]

theorem hasKey_overwrite (e : Env) (k : String) (v : PyVal) (k2 : String) :
    Env.hasKey (Env.overwrite e k v) k2 = Env.hasKey e k2 := by
  induction e with
  | nil => rfl
  | cons p rest ih =>
    obtain ⟨k0, v0⟩ := p
    simp only [Env.overwrite, Env.hasKey, ih]

theorem hasKey_set (e : Env) (k : String) (v : PyVal) (k2 : String) :
    Env.hasKey (Env.set e k v) k2 = (Env.hasKey e k2 || decide (k = k2)) := by
  unfold Env.set
  by_cases h : Env.hasKey e k = true
  · rw [if_pos h, hasKey_overwrite]
    by_cases hk2 : k = k2
    · subst hk2
      simp [h]
    · simp [hk2]
  · rw [if_neg h, hasKey_append]
    simp [Env.hasKey]

theorem hasKey_update_left (e r : Env) (k : String) :
    Env.hasKey e k = true → Env.hasKey (Env.update e r) k = true := by
  induction r generalizing e with
  | nil => intro h; exact h
  | cons p rest ih =>
    intro h
    show Env.hasKey (Env.update (Env.set e p.1 p.2) rest) k = true
    exact ih _ (by simp [hasKey_set, h])

theorem hasKey_update_right (e r : Env) (k : String) :
    Env.hasKey r k = true → Env.hasKey (Env.update e r) k = true := by
  induction r generalizing e with
  | nil => intro h; simp [Env.hasKey] at h
  | cons p rest ih =>
    intro h
    obtain ⟨k0, v0⟩ := p
    show Env.hasKey (Env.update (Env.set e k0 v0) rest) k = true
    by_cases h0 : k0 = k
    · exact hasKey_update_left _ _ _ (by simp [hasKey_set, h0])
    · apply ih
      simpa [Env.hasKey, h0] using h

theorem memberLoop_hasKey (ms : List (String × PyVal)) :
    ∀ acc env k, memberLoop ms acc = .ok env → Env.hasKey acc k = true →
      Env.hasKey env k = true := by
  induction ms with
  | nil =>
    intro acc env k h hk
    injection h with h2
    subst h2
    exact hk
  | cons p rest ih =>
    intro acc env k h hk
    obtain ⟨k0, f⟩ := p
    cases hf : funcvars f with
    | error e =>
      simp only [memberLoop, hf] at h
      exact Except.noConfusion h
    | ok r =>
      simp only [memberLoop, hf] at h
      exact ih _ env k h (hasKey_update_left _ _ _ hk)

theorem agvBases_hasKey (bs : List PyVal) :
    ∀ acc env k, agvBases bs acc = .ok env → Env.hasKey acc k = true →
      Env.hasKey env k = true := by
  induction bs with
  | nil =>
    intro acc env k h hk
    injection h with h2
    subst h2
    exact hk
  | cons b0 rest ih =>
    intro acc env k h hk
    cases hb0 : allglobalvars b0 with
    | error e =>
      simp only [agvBases, hb0] at h
      exact Except.noConfusion h
    | ok r =>
      simp only [agvBases, hb0] at h
      exact ih _ env k h (hasKey_update_left _ _ _ hk)

theorem agvBases_includes (bs : List PyVal) :
    ∀ acc env b envB k, b ∈ bs → allglobalvars b = .ok envB →
      agvBases bs acc = .ok env → Env.hasKey envB k = true →
      Env.hasKey env k = true := by
  induction bs with
  | nil =>
    intro acc env b envB k hb
    simp at hb
  | cons b0 rest ih =>
    intro acc env b envB k hb hB h hk
    cases hb0 : allglobalvars b0 with
    | error e =>
      simp only [agvBases, hb0] at h
      exact Except.noConfusion h
    | ok r =>
      simp only [agvBases, hb0] at h
      rcases List.mem_cons.mp hb with rfl | hmem
      · rw [hb0] at hB
        injection hB with h2
        subst h2
        exact agvBases_hasKey rest _ env k h (hasKey_update_right _ _ _ hk)
      · exact ih _ env b envB k hmem hB h hk

theorem class_capture_includes_base (nm : String) (bases : List PyVal)
    (members : List (String × PyVal)) (env : Env) (b : PyVal) (envB : Env) (k : String)
    (henv : allglobalvars (.pyclass nm bases members) = .ok env)
    (hb : b ∈ bases) (hB : allglobalvars b = .ok envB)
    (hk : Env.hasKey envB k = true) : Env.hasKey env k = true := by
  cases hag : agvBases bases [] with
  | error e =>
    simp only [allglobalvars, hag] at henv
    exact Except.noConfusion henv
  | ok r1 =>
    simp only [allglobalvars, hag] at henv
    have h1 : Env.hasKey r1 k = true :=
      agvBases_includes bases [] r1 b envB k hb hB hag hk
    exact memberLoop_hasKey _ r1 env k henv h1

/-- C9: for a derived class whose bases include a parent class whose
bases include a grandparent, every symbol captured for the parent, and
every symbol captured for the grandparent (in particular the symbols
referenced by the methods each of them defines), appears in the capture
of the derived class: `allglobalvars` recurses over every base class and
unions the per-method results, so ancestor captures are key-preserved. -/
theorem c9_ancestor_methods_captured (dn pn : String)
    (dBases pBases : List PyVal) (dM pM : List (String × PyVal)) (g : PyVal)
    (envD envP envG : Env)
    (hp : PyVal.pyclass pn pBases pM ∈ dBases) (hg : g ∈ pBases)
    (hD : allglobalvars (.pyclass dn dBases dM) = .ok envD)
    (hP : allglobalvars (.pyclass pn pBases pM) = .ok envP)
    (hG : allglobalvars g = .ok envG) :
    (∀ k, Env.hasKey envP k = true → Env.hasKey envD k = true) ∧
    (∀ k, Env.hasKey envG k = true → Env.hasKey envD k = true) := by
  constructor
  · intro k hk
    exact class_capture_includes_base dn dBases dM envD _ envP k hD hp hP hk
  · intro k hk
    have h1 : Env.hasKey envP k = true :=
      class_capture_includes_base pn pBases pM envP g envG k hP hg hG hk
    exact class_capture_includes_base dn dBases dM envD _ envP k hD hp hP h1

theorem c9_witness :
    allglobalvars Gcls = .ok [("gsym", .prim "gv")] ∧
    allglobalvars Pcls = .ok [("gsym", .prim "gv"), ("psym", .prim "pv")] ∧
    allglobalvars Dcls = .ok [("gsym", .prim "gv"), ("psym", .prim "pv")] ∧
    Env.hasKey [("gsym", .prim "gv"), ("psym", .prim "pv")] "gsym" = true ∧
    Env.hasKey [("gsym", .prim "gv"), ("psym", .prim "pv")] "psym" = true :=
  ⟨rfl, rfl, rfl,
   (c9_ancestor_methods_captured "D" "P" [Pcls] [Gcls] []
      [("pm", .method ["psym"] [("psym", .prim "pv")])] Gcls
      [("gsym", .prim "gv"), ("psym", .prim "pv")]
      [("gsym", .prim "gv"), ("psym", .prim "pv")]
      [("gsym", .prim "gv")]
      (List.mem_singleton.mpr rfl) (List.mem_singleton.mpr rfl)
      rfl rfl rfl).2 "gsym" rfl,
   (c9_ancestor_methods_captured "D" "P" [Pcls] [Gcls] []
      [("pm", .method ["psym"] [("psym", .prim "pv")])] Gcls
      [("gsym", .prim "gv"), ("psym", .prim "pv")]
      [("gsym", .prim "gv"), ("psym", .prim "pv")]
      [("gsym", .prim "gv")]
      (List.mem_singleton.mpr rfl) (List.mem_singleton.mpr rfl)
      rfl rfl rfl).1 "psym" rfl⟩

/-! ## C10: dotted keys of a capture are always bound to modules -/

theorem dkm_append (e1 e2 : Env) :
    dotKeysAreModules (e1 ++ e2) = (dotKeysAreModules e1 && dotKeysAreModules e2) := by
  induction e1 with
  | nil => simp [dotKeysAreModules]
  | cons p rest ih =>
    obtain ⟨k0, v0⟩ := p
    simp [dotKeysAreModules, ih, Bool.and_assoc]

theorem dkm_overwrite (e : Env) (k : String) (v : PyVal)
    (he : dotKeysAreModules e = true) (hv : (dotFree k || isModule v) = true) :
    dotKeysAreModules (Env.overwrite e k v) = true := by
  induction e with
  | nil => rfl
  | cons p rest ih =>
    obtain ⟨k0, v0⟩ := p
    simp only [dotKeysAreModules, Bool.and_eq_true] at he
    by_cases h0 : k0 = k
    · subst h0
      simp only [Env.overwrite, if_pos rfl, dotKeysAreModules, Bool.and_eq_true]
      exact ⟨hv, ih he.2⟩
    · simp only [Env.overwrite, if_neg h0, dotKeysAreModules, Bool.and_eq_true]
      exact ⟨he.1, ih he.2⟩

theorem dkm_set (e : Env) (k : String) (v : PyVal)
    (he : dotKeysAreModules e = true) (hv : (dotFree k || isModule v) = true) :
    dotKeysAreModules (Env.set e k v) = true := by
  unfold Env.set
  by_cases h : Env.hasKey e k = true
  · rw [if_pos h]
    exact dkm_overwrite e k v he hv
  · rw [if_neg h, dkm_append]
    simp [dotKeysAreModules, he, hv]

theorem dkm_mem (e : Env) (he : dotKeysAreModules e = true) :
    ∀ p ∈ e, (dotFree p.1 || isModule p.2) = true := by
  induction e with
  | nil => intro p hp; simp at hp
  | cons q rest ih =>
    obtain ⟨k0, v0⟩ := q
    simp only [dotKeysAreModules, Bool.and_eq_true] at he
    intro p hp
    rcases List.mem_cons.mp hp with rfl | hmem
    · exact he.1
    · exact ih he.2 p hmem

theorem dkm_update (r : Env) :
    ∀ e, dotKeysAreModules e = true → dotKeysAreModules r = true →
      dotKeysAreModules (Env.update e r) = true := by
  induction r with
  | nil => intro e he _; exact he
  | cons p rest ih =>
    intro e he hr
    obtain ⟨k0, v0⟩ := p
    simp only [dotKeysAreModules, Bool.and_eq_true] at hr
    show dotKeysAreModules (Env.update (Env.set e k0 v0) rest) = true
    exact ih _ (dkm_set e k0 v0 he hr.1) hr.2

theorem innerStepAttr_dkm (name r : String) (acc : Env) (v : PyVal)
    (h : dotKeysAreModules acc = true) :
    dotKeysAreModules (innerStepAttr name r acc v) = true := by
  unfold innerStepAttr
  cases getattrVal v name with
  | none => exact h
  | some a =>
    show dotKeysAreModules
      (if isModule a then Env.set acc (r ++ "." ++ name) a else acc) = true
    by_cases hm : isModule a = true
    · rw [if_pos hm]
      exact dkm_set acc _ a h (by simp [hm])
    · rw [if_neg hm]
      exact h

theorem innerStep_dkm (name r : String) (acc : Env)
    (h : dotKeysAreModules acc = true) :
    dotKeysAreModules (innerStep name r acc) = true := by
  unfold innerStep
  cases Env.lookup acc r with
  | none => exact h
  | some v => exact innerStepAttr_dkm name r acc v h

theorem innerResolve_dkm (name : String) (keys : List String) :
    ∀ acc, dotKeysAreModules acc = true →
      dotKeysAreModules (innerResolve name keys acc) = true := by
  induction keys with
  | nil => intro acc h; exact h
  | cons r rest ih =>
    intro acc h
    exact ih _ (innerStep_dkm name r acc h)

theorem funcvarsLoop_dkm (names : List String) (gd : Env) :
    ∀ acc, names.all dotFree = true → dotKeysAreModules acc = true →
      dotKeysAreModules (funcvarsLoop names gd acc) = true := by
  induction names with
  | nil => intro acc _ h; exact h
  | cons name rest ih =>
    intro acc hall h
    simp only [List.all_cons, Bool.and_eq_true] at hall
    simp only [funcvarsLoop]
    cases Env.lookup gd name with
    | some v => exact ih _ hall.2 (dkm_set acc name v h (by simp [hall.1]))
    | none => exact ih _ hall.2 (innerResolve_dkm name (Env.keys acc) acc h)

theorem funcvars_dkm (x : PyVal) (env : Env)
    (hok : namesOk x = true) (h : funcvars x = .ok env) :
    dotKeysAreModules env = true := by
  cases x with
  | pyfunc names gd =>
    injection h with h2
    subst h2
    exact funcvarsLoop_dkm names gd [] (by simpa [namesOk] using hok) rfl
  | method names gd =>
    injection h with h2
    subst h2
    exact funcvarsLoop_dkm names gd [] (by simpa [namesOk] using hok) rfl
  | module attrs => exact Except.noConfusion h
  | builtin n => exact Except.noConfusion h
  | pyclass nm bases members => exact Except.noConfusion h
  | obj members => exact Except.noConfusion h
  | prim s => exact Except.noConfusion h

theorem namesOkEnv_mem (l : List (String × PyVal)) (h : namesOkEnv l = true) :
    ∀ p ∈ l, namesOk p.2 = true := by
  induction l with
  | nil => intro p hp; simp at hp
  | cons q rest ih =>
    obtain ⟨k0, v0⟩ := q
    simp only [namesOkEnv, Bool.and_eq_true] at h
    intro p hp
    rcases List.mem_cons.mp hp with rfl | hmem
    · exact h.1
    · exact ih h.2 p hmem

theorem dedupKeysAux_sub (l : List (String × PyVal)) :
    ∀ seen p, p ∈ dedupKeysAux seen l → p ∈ l := by
  induction l with
  | nil => intro seen p hp; simp [dedupKeysAux] at hp
  | cons q rest ih =>
    intro seen p hp
    obtain ⟨k0, v0⟩ := q
    by_cases hc : seen.contains k0
    · simp only [dedupKeysAux, if_pos hc] at hp
      exact List.mem_cons_of_mem _ (ih seen p hp)
    · simp only [dedupKeysAux, if_neg hc] at hp
      rcases List.mem_cons.mp hp with rfl | hmem
      · exact List.mem_cons_self _ _
      · exact List.mem_cons_of_mem _ (ih _ p hmem)

theorem dedupKeys_sub (l : List (String × PyVal)) (p : String × PyVal)
    (hp : p ∈ dedupKeys l) : p ∈ l :=
  dedupKeysAux_sub l [] p hp

mutual
theorem classAttrs_namesOk (x : PyVal) :
    namesOk x = true → ∀ p ∈ classAttrs x, namesOk p.2 = true := by
  match x with
  | .module attrs => intro _ p hp; simp [classAttrs] at hp
  | .pyfunc names gd => intro _ p hp; simp [classAttrs] at hp
  | .method names gd => intro _ p hp; simp [classAttrs] at hp
  | .builtin n => intro _ p hp; simp [classAttrs] at hp
  | .obj members => intro _ p hp; simp [classAttrs] at hp
  | .prim s => intro _ p hp; simp [classAttrs] at hp
  | .pyclass nm bases members =>
    intro hok p hp
    have hok2 : namesOkList bases = true ∧ namesOkEnv members = true := by
      simpa [namesOk] using hok
    obtain ⟨hbs, hmem⟩ := hok2
    have hp2 : p ∈ members ++ classAttrsList bases := by
      have := dedupKeys_sub _ p (by simpa [classAttrs] using hp)
      exact this
    rcases List.mem_append.mp hp2 with h1 | h2
    · exact namesOkEnv_mem members hmem p h1
    · exact classAttrsList_namesOk bases hbs p h2
theorem classAttrsList_namesOk (bs : List PyVal) :
    namesOkList bs = true → ∀ p ∈ classAttrsList bs, namesOk p.2 = true := by
  match bs with
  | [] => intro _ p hp; simp [classAttrsList] at hp
  | b :: rest =>
    intro hok p hp
    have hsplit : namesOk b = true ∧ namesOkList rest = true := by
      simpa [namesOkList] using hok
    obtain ⟨hb, hrest⟩ := hsplit
    rcases List.mem_append.mp (by simpa [classAttrsList] using hp) with h1 | h2
    · exact classAttrs_namesOk b hb p h1
    · exact classAttrsList_namesOk rest hrest p h2
end

theorem memberLoop_dkm (ms : List (String × PyVal)) :
    ∀ acc env, (∀ p ∈ ms, namesOk p.2 = true) → dotKeysAreModules acc = true →
      memberLoop ms acc = .ok env → dotKeysAreModules env = true := by
  induction ms with
  | nil =>
    intro acc env _ hacc h
    injection h with h2
    subst h2
    exact hacc
  | cons p rest ih =>
    intro acc env hok hacc h
    obtain ⟨k0, f⟩ := p
    cases hf : funcvars f with
    | error e =>
      simp only [memberLoop, hf] at h
      exact Except.noConfusion h
    | ok r =>
      simp only [memberLoop, hf] at h
      have hr : dotKeysAreModules r = true :=
        funcvars_dkm f r (hok (k0, f) (List.mem_cons_self _ _)) hf
      exact ih _ env (fun q hq => hok q (List.mem_cons_of_mem _ hq))
        (dkm_update r acc hacc hr) h

mutual
theorem allglobalvars_dkm (x : PyVal) :
    ∀ env, namesOk x = true → allglobalvars x = .ok env →
      dotKeysAreModules env = true := by
  match x with
  | .pyfunc names gd => exact fun env hok h => funcvars_dkm _ env hok h
  | .method names gd => exact fun env hok h => funcvars_dkm _ env hok h
  | .builtin n => exact fun env _ h => Except.noConfusion h
  | .prim s =>
    intro env _ h
    injection h with h2
    subst h2
    rfl
  | .module attrs =>
    intro env hok h
    refine memberLoop_dkm _ [] env ?_ rfl h
    intro p hp
    have hp2 : p ∈ dedupKeys attrs ∧ ismethod p.2 = true := by
      simpa [getmembersMethods] using hp
    exact namesOkEnv_mem attrs (by simpa [namesOk] using hok) p
      (dedupKeys_sub _ p hp2.1)
  | .obj members =>
    intro env hok h
    refine memberLoop_dkm _ [] env ?_ rfl h
    intro p hp
    have hp2 : p ∈ dedupKeys members ∧ ismethod p.2 = true := by
      simpa [getmembersMethods] using hp
    exact namesOkEnv_mem members (by simpa [namesOk] using hok) p
      (dedupKeys_sub _ p hp2.1)
  | .pyclass nm bases members =>
    intro env hok h
    have hsplit : namesOkList bases = true ∧ namesOkEnv members = true := by
      simpa [namesOk] using hok
    obtain ⟨hbs, hmem⟩ := hsplit
    cases hag : agvBases bases [] with
    | error e =>
      simp only [allglobalvars, hag] at h
      exact Except.noConfusion h
    | ok r1 =>
      simp only [allglobalvars, hag] at h
      refine memberLoop_dkm _ r1 env ?_ (agvBases_dkm bases [] r1 hbs rfl hag) h
      intro p hp
      have hp2 : p ∈ classAttrs (.pyclass nm bases members) ∧ ismethod p.2 = true := by
        simpa [getmembersMethods] using hp
      exact classAttrs_namesOk (.pyclass nm bases members) hok p hp2.1
theorem agvBases_dkm (bs : List PyVal) :
    ∀ acc env, namesOkList bs = true → dotKeysAreModules acc = true →
      agvBases bs acc = .ok env → dotKeysAreModules env = true := by
  match bs with
  | [] =>
    intro acc env _ hacc h
    injection h with h2
    subst h2
    exact hacc
  | b :: rest =>
    intro acc env hok hacc h
    have hsplit : namesOk b = true ∧ namesOkList rest = true := by
      simpa [namesOkList] using hok
    obtain ⟨hb, hrest⟩ := hsplit
    cases hb0 : allglobalvars b with
    | error e =>
      simp only [agvBases, hb0] at h
      exact Except.noConfusion h
    | ok r =>
      simp only [agvBases, hb0] at h
      exact agvBases_dkm rest _ env hrest
        (dkm_update r acc hacc (allglobalvars_dkm b r hb hb0)) h
end

/-- C10: in every mapping returned by `funcvars` — and in every mapping
returned by `allglobalvars`, which unions such mappings — every key
containing a '.' is bound to a module object: dotted paths are only ever
recorded under the `inspect.ismodule` guard, so a non-module attribute of
a resolved value is never captured under a dotted path, but silently
omitted.  The hypothesis `namesOk x` reflects that every `co_names` entry
is a single Python identifier and so contains no '.'. -/
theorem c10_dotted_keys_are_modules (x : PyVal) (env : Env)
    (hok : namesOk x = true) :
    (funcvars x = .ok env → dotKeysAreModules env = true) ∧
    (allglobalvars x = .ok env → dotKeysAreModules env = true) :=
  ⟨fun h => funcvars_dkm x env hok h, fun h => allglobalvars_dkm x env hok h⟩

theorem c10_witness :
    namesOk dottedCaptureFunc = true ∧
    funcvars dottedCaptureFunc =
      .ok [("a", .module [("b", .module [])]), ("a.b", .module [])] ∧
    dotKeysAreModules
      [("a", .module [("b", .module [])]), ("a.b", .module [])] = true :=
  ⟨rfl, rfl,
   (c10_dotted_keys_are_modules dottedCaptureFunc
      [("a", .module [("b", .module [])]), ("a.b", .module [])] rfl).1 rfl⟩
